import Mathlib

/-!
Verification of the honeystats winner-event pipeline (`process_winner_events`
in `honeystats.py`): the chunked block-range scanner with persisted
checkpoints, the winner record store with 30-day retention pruning, the
weekly / monthly / all-time aggregation dictionaries, and the top-10
leaderboard built from them.

Conventions of the embedding:
* Python integers are `Int` (timestamps, horizons) or `Nat` (block numbers,
  stakes, which are unsigned on-chain values).
* The JSON record list loaded from `winners_<chain>.json` is a `List Entry`;
  an `Entry` is either a decoded winner dictionary (`Entry.dict`) or any
  non-dictionary JSON value (`Entry.nonDict`, with an opaque payload).
* Python dictionaries keyed by owner are association lists in insertion
  order, exactly as `dict` iteration order is defined in Python.
* The upstream `event.get_logs` call is abstracted by a failure oracle
  `fails : Nat → Nat → Bool` telling whether the request for a given
  block range raises; the `while` loop is run with fuel `head + 1 - from`,
  which is shown sufficient (`scanChunksFuel_congr`).
-/

/-- A winner record as appended by the scanner:
`{"owner": ..., "stake": ..., "timestamp": ...}` (honeystats.py line 180).
`winner.get("timestamp", 0)` is modelled by the `timestamp` field, with `0`
standing for a missing key. -/
structure WinnerRec where
  owner : String
  stake : Nat
  timestamp : Int
deriving DecidableEq, Repr

/-- An element of the loaded winners list: either a winner dictionary or an
arbitrary non-dictionary JSON value (opaque payload). -/
inductive Entry where
  | dict (w : WinnerRec)
  | nonDict (payload : Int)
deriving DecidableEq, Repr

/-- The `isinstance(winner, dict)` test on a loaded list element. -/
def isRecB : Entry → Bool
  | .dict _ => true
  | .nonDict _ => false

/-- The retention predicate of honeystats.py line 159:
`isinstance(winner, dict) and winner.get("timestamp", 0) > thirty_days_ago`. -/
def keepRecent (horizon : Int) : Entry → Bool
  | .dict w => decide (horizon < w.timestamp)
  | .nonDict _ => false

/-- The retention prune of honeystats.py line 159: the list comprehension
`[winner for winner in winners if isinstance(winner, dict) and
winner.get("timestamp", 0) > thirty_days_ago]`. -/
def prune (es : List Entry) (horizon : Int) : List Entry :=
  es.filter (keepRecent horizon)

/-- The prune step together with the error-counter state: lines 157-159 read
and rebuild `winners` but never touch `error_counter`, so the counter is
passed through unchanged. -/
def pruneWithErrors (es : List Entry) (horizon : Int) (errs : Nat) :
    List Entry × Nat :=
  (prune es horizon, errs)

/-- Thirty days in seconds, `30 * 24 * 60 * 60` (honeystats.py line 158). -/
def thirtyDays : Int := 30 * 24 * 60 * 60

/-- The horizon `thirty_days_ago = int(time.time()) - 30*24*60*60`
as a function of the current clock reading. -/
def thirtyDaysAgo (now : Int) : Int := now - thirtyDays

/-- Legacy-format normalization of honeystats.py lines 144-148: a loaded
`{owner: stake}` mapping becomes `[{"owner": o, "stake": s, "timestamp": 0}]`
in the mapping's iteration order. -/
def normalizeLegacy (m : List (String × Nat)) : List Entry :=
  m.map fun p => Entry.dict ⟨p.1, p.2, 0⟩

/-- Projection of a pruned entry list to the winner dictionaries it contains;
after `prune` every surviving element is a dictionary, so this is the list
the aggregation loop (lines 218-242) iterates over. -/
def recsOf (es : List Entry) : List WinnerRec :=
  es.filterMap fun e =>
    match e with
    | .dict w => some w
    | .nonDict _ => none

/-- Python dictionary update `d[k] += v` / `d[k] = v` used by the
aggregation loop (lines 223-226): if the key is present its value grows in
place (position in insertion order preserved), otherwise the pair is
appended at the end. -/
def updateAdd : List (String × Nat) → String → Nat → List (String × Nat)
  | [], k, v => [(k, v)]
  | (k1, v1) :: rest, k, v =>
    if k1 = k then (k1, v1 + v) :: rest
    else (k1, v1) :: updateAdd rest k v

/-- Dictionary lookup with default `0`: the cumulative amount recorded for an
owner (0 when the owner is absent). -/
def lookupAmt : List (String × Nat) → String → Nat
  | [], _ => 0
  | (k, v) :: rest, o => if k = o then v else lookupAmt rest o

/-- One aggregation dictionary built by the loop of lines 218-242: each
record whose guard holds adds its stake to its owner's total. `keepB` is the
guard (`True` for all-time, week-bucket match for weekly, month-bucket match
for monthly). -/
def buildTotalsIf (keepB : WinnerRec → Bool) (winners : List WinnerRec) :
    List (String × Nat) :=
  winners.foldl (fun d w => if keepB w then updateAdd d w.owner w.stake else d) []

/-- The `all_time_winners` dictionary: every record contributes (lines 222-226). -/
def allTimeWinners (winners : List WinnerRec) : List (String × Nat) :=
  buildTotalsIf (fun _ => true) winners

/-- The `weekly_winners` dictionary (lines 228-234). `weekOf` abstracts
`int(time.strftime("%U", time.localtime(ts)))`, the C-library week-of-year
of a timestamp; a record contributes when its week bucket equals the run's
current week. -/
def weeklyWinners (weekOf : Int → Nat) (currentWeek : Nat)
    (winners : List WinnerRec) : List (String × Nat) :=
  buildTotalsIf (fun w => decide (weekOf w.timestamp = currentWeek)) winners

/-- The `monthly_winners` dictionary (lines 236-242). `monthOf` abstracts
`int(time.strftime("%m", time.localtime(ts)))`. -/
def monthlyWinners (monthOf : Int → Nat) (currentMonth : Nat)
    (winners : List WinnerRec) : List (String × Nat) :=
  buildTotalsIf (fun w => decide (monthOf w.timestamp = currentMonth)) winners

/-- Stable insertion into a descending-sorted list: the new element goes in
front of the first element whose amount is not larger, i.e. after every
strictly larger amount and before every equal or smaller one. -/
def insDesc (x : String × Nat) : List (String × Nat) → List (String × Nat)
  | [] => [x]
  | y :: ys => if y.2 ≤ x.2 then x :: y :: ys else y :: insDesc x ys

/-- Stable descending sort by amount, the embedding of
`sorted(d.items(), key=lambda item: item[1], reverse=True)` (lines 257, 287,
306): Python's `sorted` is specified to be stable and `reverse=True` reverses
each comparison without disturbing ties, and a stable descending sort of a
sequence is unique, so any stable descending sort embeds it. -/
def sortDesc : List (String × Nat) → List (String × Nat)
  | [] => []
  | x :: xs => insDesc x (sortDesc xs)

/-- The leaderboard actually published: the sorted items truncated to the
first 10 (`sorted_winners[:10]`, lines 268, 298, 317). -/
def leaderboard (d : List (String × Nat)) : List (String × Nat) :=
  (sortDesc d).take 10

/-- One outcome of the chunked scan loop (lines 169-198): the chunk's
`from_block`, its `to_block = min(from_block + 10000, current_block)`, and
whether `event.get_logs` raised for that range. Fuelled version of the
`while from_block <= current_block` loop. -/
def scanChunksFuel (head : Nat) (fails : Nat → Nat → Bool) :
    Nat → Nat → List (Nat × Nat × Bool)
  | 0, _ => []
  | fuel + 1, fromBlock =>
    if fromBlock ≤ head then
      (fromBlock, min (fromBlock + 10000) head,
        fails fromBlock (min (fromBlock + 10000) head)) ::
        scanChunksFuel head fails fuel (min (fromBlock + 10000) head + 1)
    else []

/-- The chunk outcomes of one full scan starting at `fromBlock` with the
chain-head snapshot `head`: the loop advances `from_block` to
`to_block + 1 > from_block` every iteration, so `head + 1 - fromBlock` fuel
always suffices (`scanChunksFuel_congr`). -/
def scanChunks (head : Nat) (fails : Nat → Nat → Bool) (fromBlock : Nat) :
    List (Nat × Nat × Bool) :=
  scanChunksFuel head fails (head + 1 - fromBlock) fromBlock

/-- The checkpoint value persisted for one chunk outcome: `to_block` on
success (line 183), but `from_block` after it was already advanced to
`to_block + 1` on failure (lines 194-195). -/
def chunkCheckpoint (c : Nat × Nat × Bool) : Nat :=
  if c.2.2 then c.2.1 + 1 else c.2.1

/-- The sequence of checkpoint values written to `last_block.json` during one
scan, in write order. -/
def persistedSeq (head : Nat) (fails : Nat → Nat → Bool) (fromBlock : Nat) :
    List Nat :=
  (scanChunks head fails fromBlock).map chunkCheckpoint

/-- The number of `{chain, get_events}` error-counter increments during one
scan: one per failed chunk (line 192). -/
def errorCount (head : Nat) (fails : Nat → Nat → Bool) (fromBlock : Nat) : Nat :=
  ((scanChunks head fails fromBlock).filter fun c => c.2.2).length

/-- The value of `from_block` when the scan loop exits. -/
def finalFrom (head : Nat) (fails : Nat → Nat → Bool) (fromBlock : Nat) : Nat :=
  match (scanChunks head fails fromBlock).getLast? with
  | some c => c.2.1 + 1
  | none => fromBlock

/-- Unfolding equation for one iteration of the fuelled scan loop. -/
theorem scanChunksFuel_succ_def (head : Nat) (fails : Nat → Nat → Bool)
    (fuel fromBlock : Nat) :
    scanChunksFuel head fails (fuel + 1) fromBlock =
      if fromBlock ≤ head then
        (fromBlock, min (fromBlock + 10000) head,
          fails fromBlock (min (fromBlock + 10000) head)) ::
          scanChunksFuel head fails fuel (min (fromBlock + 10000) head + 1)
      else [] := rfl

/-- Extra fuel beyond `head + 1 - fromBlock` changes nothing: one unit can be
peeled off once the bound is met. -/
theorem scanChunksFuel_succ_irrel (head : Nat) (fails : Nat → Nat → Bool) :
    ∀ fuel fromBlock, head + 1 - fromBlock ≤ fuel →
      scanChunksFuel head fails (fuel + 1) fromBlock =
        scanChunksFuel head fails fuel fromBlock := by
  intro fuel
  induction fuel with
  | zero =>
    intro f hf
    have hgt : ¬ f ≤ head := by omega
    simp [scanChunksFuel, hgt]
  | succ fuel ih =>
    intro f hf
    by_cases hle : f ≤ head
    · have hmin : f ≤ min (f + 10000) head := le_min (by omega) hle
      have hrec : head + 1 - (min (f + 10000) head + 1) ≤ fuel := by omega
      rw [scanChunksFuel_succ_def head fails (fuel + 1) f,
        scanChunksFuel_succ_def head fails fuel f, if_pos hle, if_pos hle,
        ih _ hrec]
    · rw [scanChunksFuel_succ_def head fails (fuel + 1) f,
        scanChunksFuel_succ_def head fails fuel f, if_neg hle, if_neg hle]

/-- Any fuel of at least `head + 1 - fromBlock` gives the same chunk list, so
the fuelled loop is an adequate rendering of the unbounded `while` loop. -/
theorem scanChunksFuel_congr (head : Nat) (fails : Nat → Nat → Bool) :
    ∀ fuel fromBlock, head + 1 - fromBlock ≤ fuel →
      scanChunksFuel head fails fuel fromBlock = scanChunks head fails fromBlock := by
  intro fuel
  induction fuel with
  | zero =>
    intro f hf
    have h0 : head + 1 - f = 0 := by omega
    simp only [scanChunks, h0]
  | succ fuel ih =>
    intro f hf
    rcases Nat.lt_or_ge fuel (head + 1 - f) with hlt | hge
    · have heq : head + 1 - f = fuel + 1 := by omega
      simp only [scanChunks, heq]
    · rw [scanChunksFuel_succ_irrel head fails fuel f hge, ih f hge]

/-- Every chunk of a scan satisfies
`fromBlock ≤ from_block ≤ to_block ≤ head`. -/
theorem scanChunksFuel_mem_bounds (head : Nat) (fails : Nat → Nat → Bool) :
    ∀ fuel fromBlock c, c ∈ scanChunksFuel head fails fuel fromBlock →
      fromBlock ≤ c.1 ∧ c.1 ≤ c.2.1 ∧ c.2.1 ≤ head := by
  intro fuel
  induction fuel with
  | zero =>
    intro f c hc
    simp [scanChunksFuel] at hc
  | succ fuel ih =>
    intro f c hc
    rw [scanChunksFuel_succ_def] at hc
    by_cases hle : f ≤ head
    · rw [if_pos hle] at hc
      have hmin : f ≤ min (f + 10000) head := le_min (by omega) hle
      rcases List.mem_cons.mp hc with h | h
      · subst h
        exact ⟨le_refl _, hmin, min_le_right _ _⟩
      · have hb := ih _ c h
        exact ⟨by omega, hb.2.1, hb.2.2⟩
    · rw [if_neg hle] at hc
      simp at hc

/-- The persisted value of a chunk lies between its `to_block` and
`to_block + 1`. -/
theorem chunkCheckpoint_bounds (c : Nat × Nat × Bool) :
    c.2.1 ≤ chunkCheckpoint c ∧ chunkCheckpoint c ≤ c.2.1 + 1 := by
  unfold chunkCheckpoint
  split <;> omega

/-- Every checkpoint persisted by a scan starting at `fromBlock` is at least
`fromBlock`. -/
theorem persistedFuel_lower (head : Nat) (fails : Nat → Nat → Bool)
    (fuel fromBlock x : Nat)
    (hx : x ∈ (scanChunksFuel head fails fuel fromBlock).map chunkCheckpoint) :
    fromBlock ≤ x := by
  rcases List.mem_map.mp hx with ⟨c, hc, rfl⟩
  have hb := scanChunksFuel_mem_bounds head fails fuel fromBlock c hc
  have hcp := chunkCheckpoint_bounds c
  omega

/-- Every checkpoint persisted by a scan is at most `head + 1`. -/
theorem persistedFuel_upper (head : Nat) (fails : Nat → Nat → Bool)
    (fuel fromBlock x : Nat)
    (hx : x ∈ (scanChunksFuel head fails fuel fromBlock).map chunkCheckpoint) :
    x ≤ head + 1 := by
  rcases List.mem_map.mp hx with ⟨c, hc, rfl⟩
  have hb := scanChunksFuel_mem_bounds head fails fuel fromBlock c hc
  have hcp := chunkCheckpoint_bounds c
  omega

/-- The checkpoint values persisted by one scan form a non-decreasing
sequence. -/
theorem persistedFuel_sorted (head : Nat) (fails : Nat → Nat → Bool) :
    ∀ fuel fromBlock,
      List.Sorted (· ≤ ·)
        ((scanChunksFuel head fails fuel fromBlock).map chunkCheckpoint) := by
  intro fuel
  induction fuel with
  | zero =>
    intro f
    simp [scanChunksFuel]
  | succ fuel ih =>
    intro f
    rw [scanChunksFuel_succ_def]
    by_cases hle : f ≤ head
    · rw [if_pos hle, List.map_cons, List.sorted_cons]
      refine ⟨fun b hb => ?_, ih _⟩
      have hlow := persistedFuel_lower head fails fuel _ b hb
      have hcp := chunkCheckpoint_bounds
        (f, min (f + 10000) head, fails f (min (f + 10000) head))
      simp only at hcp
      omega
    · rw [if_neg hle]
      simp

/-- The winners list the aggregation loop actually iterates over in a run:
the pruned loaded records followed by the records appended by the scan, in
scan order. -/
def runWinners (loaded : List Entry) (now : Int) (scanned : List WinnerRec) :
    List WinnerRec :=
  recsOf (prune loaded (thirtyDaysAgo now)) ++ scanned

/-- The total stake contributed to owner `o` by the records of `l` that pass
the guard `keepB`: the reference value the dictionary loop must compute. -/
def contribSum (keepB : WinnerRec → Bool) (l : List WinnerRec) (o : String) :
    Nat :=
  ((l.filter fun w => keepB w && decide (w.owner = o)).map WinnerRec.stake).sum

/-- A dictionary update adds `v` to the looked-up amount of `o` exactly when
`k = o`, and leaves every other key's amount unchanged. -/
theorem lookupAmt_updateAdd (d : List (String × Nat)) (k : String) (v : Nat)
    (o : String) :
    lookupAmt (updateAdd d k v) o = lookupAmt d o + (if k = o then v else 0) := by
  induction d with
  | nil =>
    by_cases h : k = o <;> simp [updateAdd, lookupAmt, h]
  | cons p rest ih =>
    obtain ⟨k1, v1⟩ := p
    by_cases h1 : k1 = k
    · subst h1
      by_cases h2 : k1 = o <;> simp [updateAdd, lookupAmt, h2]
    · by_cases h2 : k1 = o
      · subst h2
        have hko : ¬ k = k1 := fun h => h1 h.symm
        simp [updateAdd, lookupAmt, h1, hko]
      · simp [updateAdd, lookupAmt, h1, h2, ih]

/-- Filtered-contribution recursion used to unfold one aggregation step. -/
theorem contribSum_cons (keepB : WinnerRec → Bool) (w : WinnerRec)
    (l : List WinnerRec) (o : String) :
    contribSum keepB (w :: l) o =
      (if keepB w = true ∧ w.owner = o then w.stake else 0) +
        contribSum keepB l o := by
  by_cases hk : keepB w = true
  · by_cases ho : w.owner = o
    · simp [contribSum, List.filter_cons, hk, ho]
    · simp [contribSum, List.filter_cons, hk, ho]
  · simp [contribSum, List.filter_cons, hk]

/-- The aggregation fold computes, for every owner, the starting amount plus
the guarded sum of stakes. -/
theorem lookupAmt_foldl (keepB : WinnerRec → Bool) :
    ∀ (l : List WinnerRec) (d : List (String × Nat)) (o : String),
      lookupAmt
        (l.foldl (fun d w => if keepB w then updateAdd d w.owner w.stake else d) d)
        o = lookupAmt d o + contribSum keepB l o := by
  intro l
  induction l with
  | nil =>
    intro d o
    simp [contribSum]
  | cons w l ih =>
    intro d o
    rw [List.foldl_cons, ih, contribSum_cons]
    by_cases hk : keepB w = true
    · rw [if_pos hk, lookupAmt_updateAdd]
      by_cases ho : w.owner = o
      · simp [hk, ho]
        omega
      · simp [hk, ho]
    · simp [hk]

/-- Every aggregation dictionary records, per owner, exactly the guarded sum
of stakes. -/
theorem lookupAmt_buildTotalsIf (keepB : WinnerRec → Bool)
    (l : List WinnerRec) (o : String) :
    lookupAmt (buildTotalsIf keepB l) o = contribSum keepB l o := by
  unfold buildTotalsIf
  rw [lookupAmt_foldl]
  simp [lookupAmt]

/-- Guarded stake sums are invariant under permutation of the record list. -/
theorem contribSum_perm (keepB : WinnerRec → Bool) {l l2 : List WinnerRec}
    (hp : l.Perm l2) (o : String) :
    contribSum keepB l o = contribSum keepB l2 o := by
  unfold contribSum
  exact List.Perm.sum_eq (List.Perm.map _ (hp.filter _))

/-- Stable insertion produces a permutation of consing. -/
theorem insDesc_perm (x : String × Nat) (l : List (String × Nat)) :
    (insDesc x l).Perm (x :: l) := by
  induction l with
  | nil => simp [insDesc]
  | cons y ys ih =>
    by_cases h : y.2 ≤ x.2
    · simp only [insDesc, if_pos h]
      exact List.Perm.refl _
    · simp only [insDesc, if_neg h]
      exact (ih.cons y).trans (List.Perm.swap x y ys)

/-- The stable descending sort permutes its input. -/
theorem sortDesc_perm (l : List (String × Nat)) : (sortDesc l).Perm l := by
  induction l with
  | nil => simp [sortDesc]
  | cons x xs ih =>
    exact (insDesc_perm x (sortDesc xs)).trans (ih.cons x)

/-- Stable insertion into a descending-sorted list keeps it descending. -/
theorem insDesc_sorted {x : String × Nat} {l : List (String × Nat)}
    (hl : List.Sorted (fun a b => b.2 ≤ a.2) l) :
    List.Sorted (fun a b => b.2 ≤ a.2) (insDesc x l) := by
  induction l with
  | nil => simp [insDesc]
  | cons y ys ih =>
    rw [List.sorted_cons] at hl
    by_cases h : y.2 ≤ x.2
    · simp only [insDesc, if_pos h, List.sorted_cons]
      refine ⟨fun b hb => ?_, hl⟩
      rcases List.mem_cons.mp hb with rfl | hb
      · exact h
      · exact le_trans (hl.1 b hb) h
    · simp only [insDesc, if_neg h, List.sorted_cons]
      refine ⟨fun b hb => ?_, ih hl.2⟩
      have hb2 : b ∈ x :: ys := (insDesc_perm x ys).mem_iff.mp hb
      rcases List.mem_cons.mp hb2 with rfl | hb2
      · exact le_of_not_le h
      · exact hl.1 b hb2

/-- The stable descending sort is descending by amount. -/
theorem sortDesc_sorted (l : List (String × Nat)) :
    List.Sorted (fun a b => b.2 ≤ a.2) (sortDesc l) := by
  induction l with
  | nil => simp [sortDesc]
  | cons x xs ih => exact insDesc_sorted ih

/-- Stable insertion never reorders the entries of any one amount: filtering
by an amount commutes with the insertion. -/
theorem insDesc_filter_amt (x : String × Nat) (l : List (String × Nat))
    (n : Nat) :
    (insDesc x l).filter (fun p => decide (p.2 = n)) =
      ((x :: l).filter fun p => decide (p.2 = n)) := by
  induction l with
  | nil => rfl
  | cons y ys ih =>
    by_cases h : y.2 ≤ x.2
    · simp only [insDesc, if_pos h]
    · simp only [insDesc, if_neg h]
      simp only [List.filter_cons]
      by_cases hx : x.2 = n
      · have hy : ¬ y.2 = n := by omega
        simp [hx, hy, ih]
      · by_cases hy : y.2 = n
        · simp [hx, hy, ih]
        · simp [hx, hy, ih]

/-- The stable descending sort keeps the entries of every amount in their
original relative order. -/
theorem sortDesc_filter_amt (l : List (String × Nat)) (n : Nat) :
    (sortDesc l).filter (fun p => decide (p.2 = n)) =
      (l.filter fun p => decide (p.2 = n)) := by
  induction l with
  | nil => rfl
  | cons x xs ih =>
    show ((insDesc x (sortDesc xs)).filter fun p => decide (p.2 = n)) = _
    rw [insDesc_filter_amt]
    simp only [List.filter_cons]
    by_cases hx : x.2 = n
    · simp [hx, ih]
    · simp [hx, ih]

/-- Elements failing the `isinstance(winner, dict)` test are invisible to the
prune: removing them first changes nothing for the surviving records. -/
theorem prune_skip_nonDict (es : List Entry) (h : Int) :
    prune (es.filter isRecB) h = prune es h := by
  unfold prune
  induction es with
  | nil => rfl
  | cons e es ih =>
    cases e with
    | dict w =>
      rw [List.filter_cons, if_pos (by simp [isRecB])]
      rw [List.filter_cons, List.filter_cons, ih]
    | nonDict p =>
      rw [List.filter_cons, if_neg (by simp [isRecB])]
      rw [List.filter_cons, if_neg (by simp [keepRecent])]
      exact ih

/-- C1 counterexample: with no checkpoint, deployment block 1000 (so the scan
starts at 1001) and head snapshot 25000, the chunks produced by the code are
not `[1001,11000], [11001,21000], [21001,25000]`: the loop uses
`to_block = min(from_block + 10000, current_block)`, which spans 10,001
blocks, not 10,000. -/
theorem scenarioA_chunk_list_cex :
    ¬ ((scanChunks 25000 (fun _ _ => false) 1001).map (fun c => (c.1, c.2.1)) =
      [(1001, 11000), (11001, 21000), (21001, 25000)]) := by
  decide

/-- C1 (amended): with no checkpoint, deployment block 1000 and head snapshot
25000, an all-success scan processes exactly the chunks
`[1001,11001], [11002,21002], [21003,25000]` (each upper bound is
`min(from_block + 10000, head)`, a span of 10,001 blocks capped at the head),
and the final persisted checkpoint is 25000. -/
theorem scenarioA_chunks :
    (scanChunks 25000 (fun _ _ => false) 1001).map (fun c => (c.1, c.2.1)) =
      [(1001, 11001), (11002, 21002), (21003, 25000)] ∧
    (persistedSeq 25000 (fun _ _ => false) 1001).getLast? = some 25000 := by
  decide

/-- C2 counterexample: when the single chunk `[11001,21000]` (head snapshot
21000) fails, the persisted checkpoint sequence is `[21001]` — the code
persists `from_block` after advancing it to `to_block + 1` (lines 194-195) —
so the value 21000 claimed by the spec is never persisted. -/
theorem scenarioB_checkpoint_cex :
    persistedSeq 21000 (fun _ _ => true) 11001 = [21001] ∧
    ¬ (21000 ∈ persistedSeq 21000 (fun _ _ => true) 11001) := by
  decide

/-- C2 (amended): when the chunk `[11001,21000]` fails, the `get_events`
error tally is incremented exactly once, the persisted checkpoint advances to
21001 (one past the failed chunk's upper bound), the loop variable resumes at
`from_block = 21001`, and the failed range appears exactly once in the chunk
list — it is skipped, not retried. -/
theorem scenarioB_failed_chunk :
    scanChunks 21000 (fun _ _ => true) 11001 = [(11001, 21000, true)] ∧
    errorCount 21000 (fun _ _ => true) 11001 = 1 ∧
    persistedSeq 21000 (fun _ _ => true) 11001 = [21001] ∧
    finalFrom 21000 (fun _ _ => true) 11001 = 21001 := by
  decide

/-- C3: whatever the failure pattern, the checkpoint values written during a
scan that starts from stored checkpoint `lastBlock` form a monotonically
non-decreasing sequence, each write at least the previously stored value. -/
theorem checkpoint_monotone (head : Nat) (fails : Nat → Nat → Bool)
    (lastBlock : Nat) :
    List.Sorted (· ≤ ·) (lastBlock :: persistedSeq head fails (lastBlock + 1)) := by
  rw [List.sorted_cons]
  constructor
  · intro b hb
    simp only [persistedSeq, scanChunks] at hb
    have := persistedFuel_lower head fails _ _ b hb
    omega
  · simp only [persistedSeq, scanChunks]
    exact persistedFuel_sorted head fails _ _

/-- C4 counterexample: with head snapshot 5 and a scan from block 1 whose
only (final) chunk fails, the persisted checkpoint sequence is `[6]`, so the
claim that every persisted checkpoint is at most the head is false. -/
theorem head_bound_cex :
    persistedSeq 5 (fun _ _ => true) 1 = [6] ∧
    ¬ (∀ x ∈ persistedSeq 5 (fun _ _ => true) 1, x ≤ 5) := by
  decide

/-- C4 (amended): every checkpoint persisted during a scan with head snapshot
`head` is at most `head + 1`; checkpoints written after successful chunks are
at most `head` — only a failed chunk whose upper bound is the head persists
`head + 1`. -/
theorem head_bound (head : Nat) (fails : Nat → Nat → Bool) (fromBlock : Nat) :
    (∀ x ∈ persistedSeq head fails fromBlock, x ≤ head + 1) ∧
    (∀ c ∈ scanChunks head fails fromBlock, c.2.2 = false →
      chunkCheckpoint c ≤ head) := by
  constructor
  · intro x hx
    simp only [persistedSeq, scanChunks] at hx
    exact persistedFuel_upper head fails _ _ x hx
  · intro c hc hsucc
    simp only [scanChunks] at hc
    have hb := scanChunksFuel_mem_bounds head fails _ _ c hc
    unfold chunkCheckpoint
    rw [hsucc]
    simpa using hb.2.2

/-- C4 witness: the bounds applied at a concrete all-success scan with head
snapshot 5. -/
theorem head_bound_witness :
    (5 : Nat) ≤ 5 + 1 ∧ chunkCheckpoint (1, 5, false) ≤ 5 :=
  ⟨(head_bound 5 (fun _ _ => false) 1).1 5 (by decide),
   (head_bound 5 (fun _ _ => false) 1).2 (1, 5, false) (by decide) rfl⟩

/-- C5 counterexample: a record whose timestamp equals the horizon exactly is
removed by the prune, not retained — line 159 keeps only
`timestamp > thirty_days_ago`. -/
theorem prune_boundary_cex :
    prune [Entry.dict ⟨"A", 500, 100⟩] 100 = [] := by
  decide

/-- C5 (amended): the prune retains exactly the dictionary records whose
`observed_at` is strictly newer than the horizon — records strictly older
than or exactly equal to `now - 30 days` are removed — and every record that
reaches the aggregation loop is strictly newer than the horizon. -/
theorem prune_strict (es : List Entry) (h : Int) (w : WinnerRec) :
    (Entry.dict w ∈ prune es h ↔ Entry.dict w ∈ es ∧ h < w.timestamp) ∧
    (∀ u ∈ recsOf (prune es h), h < u.timestamp) := by
  constructor
  · constructor
    · intro hm
      have := List.mem_filter.mp hm
      exact ⟨this.1, by simpa [keepRecent] using this.2⟩
    · intro hm
      exact List.mem_filter.mpr ⟨hm.1, by simpa [keepRecent] using hm.2⟩
  · intro u hu
    rcases List.mem_filterMap.mp hu with ⟨e, he, hs⟩
    have hk := (List.mem_filter.mp he).2
    cases e with
    | dict v =>
      simp only [Option.some.injEq] at hs
      subst hs
      simpa [keepRecent] using hk
    | nonDict p => simp at hs

/-- C5 witness: the prune characterization applied to a concrete record
strictly newer than the horizon. -/
theorem prune_strict_witness : (3 : Int) < 5 :=
  (prune_strict [Entry.dict ⟨"A", 1, 5⟩] 3 ⟨"A", 1, 5⟩).2 ⟨"A", 1, 5⟩ (by decide)

/-- C6: pruning twice with the same horizon equals pruning once. -/
theorem prune_idempotent (es : List Entry) (h : Int) :
    prune (prune es h) h = prune es h := by
  unfold prune
  exact List.filter_eq_self.mpr fun a ha => (List.mem_filter.mp ha).2

/-- C7: for a fixed current week/month, the weekly, monthly and all-time
owner totals computed by the aggregation loop are invariant under any
permutation of the record sequence. -/
theorem aggregate_perm_invariant (l l2 : List WinnerRec) (hp : l.Perm l2)
    (weekOf monthOf : Int → Nat) (cw cm : Nat) (o : String) :
    lookupAmt (allTimeWinners l) o = lookupAmt (allTimeWinners l2) o ∧
    lookupAmt (weeklyWinners weekOf cw l) o =
      lookupAmt (weeklyWinners weekOf cw l2) o ∧
    lookupAmt (monthlyWinners monthOf cm l) o =
      lookupAmt (monthlyWinners monthOf cm l2) o := by
  refine ⟨?_, ?_, ?_⟩
  · unfold allTimeWinners
    rw [lookupAmt_buildTotalsIf, lookupAmt_buildTotalsIf]
    exact contribSum_perm _ hp o
  · unfold weeklyWinners
    rw [lookupAmt_buildTotalsIf, lookupAmt_buildTotalsIf]
    exact contribSum_perm _ hp o
  · unfold monthlyWinners
    rw [lookupAmt_buildTotalsIf, lookupAmt_buildTotalsIf]
    exact contribSum_perm _ hp o

/-- C7 witness: permutation invariance applied to swapping two concrete
records. -/
theorem aggregate_perm_invariant_witness :
    lookupAmt (allTimeWinners [⟨"A", 2, 10⟩, ⟨"B", 3, 20⟩]) "A" =
      lookupAmt (allTimeWinners [⟨"B", 3, 20⟩, ⟨"A", 2, 10⟩]) "A" :=
  (aggregate_perm_invariant [⟨"A", 2, 10⟩, ⟨"B", 3, 20⟩]
    [⟨"B", 3, 20⟩, ⟨"A", 2, 10⟩] (List.Perm.swap _ _ _)
    (fun _ => 0) (fun _ => 0) 0 0 "A").1

/-- C8 counterexample: the parenthetical "0 is always older than any 30-day
horizon relative to a positive now" is false in the code's signed-integer
arithmetic: with `now = 1` the horizon is negative, the normalized legacy
record `{A: 500, timestamp 0}` survives the prune, and owner A is present in
the all-time aggregate with amount 500. -/
theorem legacy_prune_cex :
    prune (normalizeLegacy [("A", 500)]) (thirtyDaysAgo 1) =
      [Entry.dict ⟨"A", 500, 0⟩] ∧
    lookupAmt (allTimeWinners (recsOf
      (prune (normalizeLegacy [("A", 500)]) (thirtyDaysAgo 1)))) "A" = 500 := by
  decide

/-- C8 (amended): a legacy store `{A: 500}` normalizes to
`[{A, 500, timestamp 0}]`, and for any run time at least 30 days past the
epoch (every realistic clock value, so the horizon is non-negative) the
prune drops every timestamp-0 record, leaving the all-time aggregate empty —
owner A is absent after the run, assuming no new events. -/
theorem legacy_pruned (m : List (String × Nat)) (now : Int)
    (hn : thirtyDays ≤ now) :
    normalizeLegacy [("A", 500)] = [Entry.dict ⟨"A", 500, 0⟩] ∧
    prune (normalizeLegacy m) (thirtyDaysAgo now) = [] ∧
    allTimeWinners (recsOf (prune (normalizeLegacy m) (thirtyDaysAgo now))) =
      [] := by
  have h2 : prune (normalizeLegacy m) (thirtyDaysAgo now) = [] := by
    unfold prune
    refine List.filter_eq_nil_iff.mpr ?_
    intro e he
    rcases List.mem_map.mp he with ⟨p, hp, rfl⟩
    have hn2 : (2592000 : Int) ≤ now := by norm_num [thirtyDays] at hn; omega
    simp only [keepRecent, thirtyDaysAgo, thirtyDays]
    norm_num
    omega
  exact ⟨rfl, h2, by rw [h2]; rfl⟩

/-- C8 witness: the amended claim at the smallest admissible clock value. -/
theorem legacy_pruned_witness :
    prune (normalizeLegacy [("A", 500)]) (thirtyDaysAgo 2592000) = [] :=
  (legacy_pruned [("A", 500)] 2592000 (by norm_num [thirtyDays])).2.1

/-- C9: the leaderboard is the aggregate's items stably sorted descending by
amount and truncated to the first 10 entries: the sorted list is descending,
is a permutation of the dictionary's insertion-ordered items, and entries of
any one amount keep their relative insertion order. -/
theorem leaderboard_spec (d : List (String × Nat)) :
    leaderboard d = (sortDesc d).take 10 ∧
    List.Sorted (fun a b => b.2 ≤ a.2) (sortDesc d) ∧
    (sortDesc d).Perm d ∧
    (∀ n, (sortDesc d).filter (fun p => decide (p.2 = n)) =
      d.filter fun p => decide (p.2 = n)) ∧
    (leaderboard d).length ≤ 10 := by
  refine ⟨rfl, sortDesc_sorted d, sortDesc_perm d,
    fun n => sortDesc_filter_amt d n, ?_⟩
  unfold leaderboard
  simp [List.length_take_le]

/-- C10: retention pruning removes every non-dictionary element regardless of
its payload, leaves the surviving records exactly as if the non-dictionaries
had never been there, does not touch the error counter, and every element
that reaches aggregation is a dictionary record. -/
theorem nondict_removed (es : List Entry) (h : Int) (errs : Nat) :
    ((prune es h).all isRecB = true) ∧
    prune (es.filter isRecB) h = prune es h ∧
    (pruneWithErrors es h errs).2 = errs := by
  refine ⟨?_, prune_skip_nonDict es h, rfl⟩
  rw [List.all_eq_true]
  intro e he
  have hk := (List.mem_filter.mp he).2
  cases e with
  | dict w => rfl
  | nonDict p => simp [keepRecent] at hk
